import Mathlib

/-!
Verification development for the `german_words` repository: a shallow
embedding of the game's scoring, streak, word-pool, and deterministic
puzzle-selection logic, together with theorems settling the specification's
testable properties.

Modelling conventions:
* JavaScript strings are modelled as `List Char` (`Str`); `.length`,
  `charCodeAt`, `toLowerCase`, `trim` and `split('')` act on UTF-16 code
  units, which coincide with code points for the basic-multilingual-plane
  text this repository handles.
* JavaScript numbers holding integer counts and integer sums stay within
  `2^53`, where binary64 arithmetic is exact, so they are modelled as
  `ℕ`/`ℤ`.  The two places where a genuinely fractional binary64 value is
  produced (`timeMs / 1000` and `(correctGuesses / uniqueLetters) * 50` in
  `HangmanManager.calculateScore`) are modelled with an exact
  round-to-nearest (ties to even) rounding function `fpRound` on `ℚ`; all
  values reached there lie well inside the normal finite range of binary64,
  so the unbounded-exponent model agrees with IEEE-754 binary64.
* Redis and the in-memory caches are modelled as explicit state values
  threaded through the functions; persisting and caching both update the
  same state.
* External HTTP providers are modelled by passing the fetched word lists
  as explicit arguments.
-/

set_option maxRecDepth 4000

/-- JavaScript strings as lists of UTF-16 units / characters. -/
abbrev Str := List Char

/-! ### Shared data types (src/shared/types/api.ts) -/

/-- Difficulty tiers, `'easy' | 'medium' | 'hard'`. -/
inductive HangmanDifficulty where
  | easy
  | medium
  | hard
deriving DecidableEq

/-- An entry of the word pool: `{ word, hint }`.  The `word` field is
subjected to character-level computation, the `hint` is opaque payload. -/
structure HangmanWord where
  word : Str
  hint : String
deriving DecidableEq

/-- One recorded hangman guess: `{ letter, correct, timestamp }`. -/
structure HangmanGuess where
  letter : String
  correct : Bool
  timestamp : ℕ
deriving DecidableEq

/-- One recorded word-match answer: `{ itemId, pick, correct, ms }`. -/
structure GameAnswer where
  itemId : String
  pick : String
  correct : Bool
  ms : ℕ
deriving DecidableEq

/-- Per-user progress record `{ streak, maxStreak, lastPlayed? }`. -/
structure UserState where
  streak : ℕ
  maxStreak : ℕ
  lastPlayed : Option String
deriving DecidableEq

/-- One labeled choice of a word-match item, `{ key, label }`. -/
structure WMChoice where
  key : String
  label : String
deriving DecidableEq

/-- A word-match item (prompt, three labeled choices, answer key). -/
structure WordMatchItem where
  id : String
  prompt_en : String
  direction : String
  choices : List WMChoice
  answerKey : String
  note : Option String
  tags : Option (List String)
  variants : Option (List String)
deriving DecidableEq

/-- Metadata blob of a daily puzzle. -/
structure WMMeta where
  author : Option String
  source : Option String
  difficulty : Option ℕ
deriving DecidableEq

/-- A daily word-match puzzle.  `items` holds the 8 selected items; the
entries are `Option`-valued because the JavaScript shuffle can leave
`undefined` holes (see `seededShuffle`). -/
structure WordMatchDaily where
  id : Str
  lang : Str
  date : Str
  items : List (Option WordMatchItem)
  meta : Option WMMeta
deriving DecidableEq

/-! ### String helpers

JavaScript `toLowerCase` is modelled per-character; `trim` strips
whitespace from both ends. -/

/-- The Unicode lowercase mapping of one character as performed by
JavaScript `toLowerCase()`, exact on the whole Latin-1 repertoire
(code points below `0x100`), which covers German text: `A`–`Z` and
`À`–`Þ` (so in particular `Ä`, `Ö`, `Ü`) map 32 code points up, while
`ß` and the multiplication sign `×` are unchanged.  Code points from
`0x100` upward — whose full lowercase mappings can be multi-character
(e.g. `İ`) and which do not occur in this word store's German data — are
outside the modelled repertoire and left unchanged. -/
def jsToLower (c : Char) : Char :=
  if 65 ≤ c.toNat ∧ c.toNat ≤ 90 then Char.ofNat (c.toNat + 32)
  else if 192 ≤ c.toNat ∧ c.toNat ≤ 222 ∧ c.toNat ≠ 215 then
    Char.ofNat (c.toNat + 32)
  else c

/-- Model of `s.toLowerCase()`. -/
def lowerStr (s : Str) : Str := s.map jsToLower

/-- Model of `s.trim()`. -/
def trimStr (s : Str) : Str :=
  ((s.dropWhile Char.isWhitespace).reverse.dropWhile Char.isWhitespace).reverse

/-! ### Binary64 rounding model

`fpRound` is round-to-nearest, ties to even, with a 53-bit significand and
unbounded exponent: the value of an IEEE-754 binary64 operation whose exact
result is `q`, for results in the normal finite range (all results in this
development lie between `2^-40` and `2^60`). -/

/-- Round a scaled significand to the nearest integer, ties to even. -/
def roundTiesEven (s : ℚ) : ℤ :=
  let f := ⌊s⌋
  if s - f < 1/2 then f
  else if 1/2 < s - f then f + 1
  else if 2 ∣ f then f else f + 1

/-- Round a positive rational to 53 significant bits (nearest, ties even). -/
def fpRoundPos (q : ℚ) : ℚ :=
  let e := Int.log 2 q
  (roundTiesEven (q * 2 ^ ((52 : ℤ) - e)) : ℚ) * 2 ^ (e - 52)

/-- Binary64 rounding of an exact rational result. -/
def fpRound (q : ℚ) : ℚ :=
  if q = 0 then 0
  else if q < 0 then -fpRoundPos (-q)
  else fpRoundPos q

/-! ### Difficulty classification

`RandomWordsAPI.estimateDifficulty` (src/server/lib/random-words-api.ts)
and `OpenThesaurusAPI.estimateWordDifficulty`
(src/server/lib/openthesaurus-api.ts). -/

/-- Length-based difficulty bucketing of `RandomWordsAPI`. -/
def RandomWordsAPI.estimateDifficulty (word : Str) : HangmanDifficulty :=
  let len := word.length
  if len ≤ 5 then .easy
  else if len ≤ 9 then .medium
  else .hard

/-- Length-based difficulty bucketing of `OpenThesaurusAPI`; the word is
lower-cased first (which does not change its length). -/
def OpenThesaurusAPI.estimateWordDifficulty (word : Str) : HangmanDifficulty :=
  let normalizedWord := lowerStr word
  let length := normalizedWord.length
  if length ≤ 5 then .easy
  else if length ≤ 9 then .medium
  else .hard

/-! ### Word-match scoring and streaks (src/server/lib/game.ts) -/

/-- Model of `computeScore`: count of correct answers, and whether all
answers were correct. -/
def computeScore (answers : List GameAnswer) : ℕ × Bool :=
  let score := (answers.filter fun a => a.correct).length
  let perfect := score == answers.length
  (score, perfect)

/-- Model of `updateStreak`.  The pass threshold is
`score >= Math.ceil(totalItems * 0.625)`; on integer inputs the binary64
product `totalItems * 0.625` is exact (`0.625 = 5/8` is a dyadic rational
and `5 * totalItems` stays below `2^53`), so the exact rational ceiling is
the faithful model. -/
def updateStreak (currentStreak score totalItems : ℕ) : ℕ × Bool :=
  let passed : Bool := decide ((⌈(totalItems : ℚ) * 0.625⌉ : ℤ) ≤ (score : ℤ))
  let newStreak := if passed then currentStreak + 1 else 0
  (newStreak, passed)

/-- Model of `calculateTotalTime`: sum of the per-answer response times. -/
def calculateTotalTime (answers : List GameAnswer) : ℕ :=
  answers.foldl (fun total answer => total + answer.ms) 0

/-- Pure core of the `POST /api/submit-result` handler
(src/server/index.ts): compute the score, update the streak, raise the
high-water mark, and record the seed as last played.  Returns the persisted
user state together with the response's `newStreak` and the pass flag. -/
def submitResultUpdate (userState : UserState) (answers : List GameAnswer)
    (seed : String) : UserState × ℕ × Bool :=
  let score := (computeScore answers).1
  let streakResult := updateStreak userState.streak score answers.length
  let newStreak := streakResult.1
  let maxStreak := max userState.maxStreak newStreak
  ({ streak := newStreak, maxStreak := maxStreak, lastPlayed := some seed },
   newStreak, streakResult.2)

/-! ### Word pool store (src/server/lib/word-enricher-redis.ts)

The three tier collections (in-memory cache and the mirroring Redis
hashes) are modelled as one `Pools` state. -/

/-- The three size-bucketed word collections. -/
structure Pools where
  easy : List HangmanWord
  medium : List HangmanWord
  hard : List HangmanWord
deriving DecidableEq

/-- Model of `WordEnricherRedis.getWords`: the collection of one tier. -/
def WordEnricherRedis.getWords (st : Pools) (difficulty : HangmanDifficulty) :
    List HangmanWord :=
  match difficulty with
  | .easy => st.easy
  | .medium => st.medium
  | .hard => st.hard

/-- Append one entry to the tier chosen by `difficulty`
(`this.enrichedWords[difficulty].push(entry)` plus the mirroring Redis
`hSet`). -/
def Pools.push (st : Pools) (difficulty : HangmanDifficulty)
    (w : HangmanWord) : Pools :=
  match difficulty with
  | .easy => { st with easy := st.easy ++ [w] }
  | .medium => { st with medium := st.medium ++ [w] }
  | .hard => { st with hard := st.hard ++ [w] }

/-- All entries of the pool across the three tiers, in the concatenation
order used by the existence checks of the source. -/
def Pools.allWords (st : Pools) : List HangmanWord :=
  st.easy ++ st.medium ++ st.hard

/-- Model of `WordEnricherRedis.addWord`: normalize (lower-case, trim),
reject if the normalized word already exists case-insensitively in any
tier, otherwise classify (when no tier is given), append, persist. -/
def WordEnricherRedis.addWord (word : Str) (hint : String)
    (difficulty : Option HangmanDifficulty) (st : Pools) : Bool × Pools :=
  let normalizedWord := trimStr (lowerStr word)
  if st.allWords.any fun w => lowerStr w.word = normalizedWord then
    (false, st)
  else
    let actualDifficulty :=
      match difficulty with
      | some d => d
      | none => RandomWordsAPI.estimateDifficulty normalizedWord
    let newWord : HangmanWord := { word := normalizedWord, hint := hint }
    (true, st.push actualDifficulty newWord)

/-- The shared enrichment loop of `enrichWithRandomGermanWords` and
`searchAndAddWords`: walk the fetched candidates, skip any word already
present case-insensitively in any tier (including candidates added earlier
in the same batch), classify the rest and append them; count the entries
actually appended. -/
def enrichLoop (classify : Str → HangmanDifficulty) :
    List HangmanWord → Pools → ℕ → ℕ × Pools
  | [], st, added => (added, st)
  | w :: rest, st, added =>
    if st.allWords.any fun x => lowerStr x.word = lowerStr w.word then
      enrichLoop classify rest st added
    else
      enrichLoop classify rest (st.push (classify w.word) w) (added + 1)

/-- Model of `WordEnricherRedis.enrichWithRandomGermanWords`; `fetched` is
the (already normalized) list returned by
`RandomWordsAPI.fetchRandomGermanWords`.  Classification uses
`RandomWordsAPI.estimateDifficulty` on the raw fetched word. -/
def WordEnricherRedis.enrichWithRandomGermanWords (fetched : List HangmanWord)
    (st : Pools) : ℕ × Pools :=
  enrichLoop RandomWordsAPI.estimateDifficulty fetched st 0

/-- Model of the add-phase of `WordEnricherRedis.searchAndAddWords`;
`selected` is the filtered/shuffled/sliced candidate list paired with the
hints generated for each word.  Classification uses
`OpenThesaurusAPI.estimateWordDifficulty`. -/
def WordEnricherRedis.searchAndAddWords (selected : List HangmanWord)
    (st : Pools) : ℕ × Pools :=
  enrichLoop OpenThesaurusAPI.estimateWordDifficulty selected st 0

/-! ### Deterministic word selection (src/server/lib/german-words.ts) -/

/-- Model of `getWordByIndex` (Redis variant): read the pool for the tier;
if it is empty, run the on-demand enrichment (with `fetched` standing for
the provider response) and re-read; if it is still empty fail with the
explicit error, otherwise select the entry at `index % words.length`.
`index` is the (always non-negative) seed-derived integer. -/
def getWordByIndex (difficulty : HangmanDifficulty) (index : ℕ)
    (fetched : List HangmanWord) (st : Pools) :
    Except String (HangmanWord × Pools) :=
  let words := WordEnricherRedis.getWords st difficulty
  if h : words = [] then
    let st' := (WordEnricherRedis.enrichWithRandomGermanWords fetched st).2
    let words' := WordEnricherRedis.getWords st' difficulty
    if h' : words' = [] then
      .error "No words available in Redis"
    else
      .ok (words'.get ⟨index % words'.length,
            Nat.mod_lt _ (List.length_pos.mpr h')⟩, st')
  else
    .ok (words.get ⟨index % words.length,
          Nat.mod_lt _ (List.length_pos.mpr h)⟩, st)

/-! ### Seeded hash, LCG and shuffle (src/server/lib/seed.ts) -/

/-- Coercion of an integer to a 32-bit two's-complement value (the effect
of JavaScript's `| 0`-style conversions, here `<< 5` and `hash & hash`). -/
def toInt32 (n : ℤ) : ℤ := (n + 2 ^ 31) % 2 ^ 32 - 2 ^ 31

/-- One step of the seed hash:
`hash = ((hash << 5) - hash) + char; hash = hash & hash`.  The shift is a
32-bit operation; the subtraction and addition are exact in binary64 at
these magnitudes; `hash & hash` truncates back to 32 bits. -/
def jsHashStep (h c : ℤ) : ℤ := toInt32 (toInt32 (h * 32) - h + c)

/-- The seed-string hash of `seededShuffle` (a 32-bit signed value, which
can be negative). -/
def jsStringHash (seed : Str) : ℤ :=
  seed.foldl (fun h c => jsHashStep h (c.toNat : ℤ)) 0

/-- The linear-congruential step `hash = (hash * 9301 + 49297) % 233280`.
JavaScript `%` is the truncated remainder (sign of the dividend), i.e.
`Int.tmod`. -/
def lcgNext (h : ℤ) : ℤ := Int.tmod (h * 9301 + 49297) 233280

/-- One swap target: `Math.floor((hash / 233280) * currentIndex)`.  For
`|hash| < 233280` and small `currentIndex` the binary64 computation yields
the exact floor of the rational product, modelled with `Int.fdiv`
(`Math.floor` rounds toward negative infinity). -/
def swapIndex (h : ℤ) (currentIndex : ℕ) : ℤ :=
  Int.fdiv (h * currentIndex) 233280

/-- The body of the shuffle's `while` loop, acting on the JavaScript array
object modelled as a total map `ℤ → Option α` (reading an index that was
never written yields `undefined`; writing a negative index stores an
ordinary object property that later reads of the same index see).
`fuel` is `currentIndex`; each iteration advances the LCG, computes the
swap target with the pre-decrement index, decrements, and performs the
destructuring swap (both reads happen before both writes). -/
def shuffleLoop (f : ℤ → Option α) (h : ℤ) : ℕ → (ℤ → Option α) × ℤ
  | 0 => (f, h)
  | ci + 1 =>
    let h' := lcgNext h
    let ri := swapIndex h' (ci + 1)
    let a := f (ci : ℤ)
    let b := f ri
    let f' : ℤ → Option α :=
      fun j => if j = (ci : ℤ) then b else if j = ri then a else f j
    shuffleLoop f' h' ci

/-- Model of `seededShuffle`: copy the array, hash the seed, run the swap
loop, and read back indices `0 .. n-1`.  Entries are `Option`-valued
because a negative swap target reads `undefined` into the array. -/
def seededShuffle (array : List α) (seed : Str) : List (Option α) :=
  let n := array.length
  let f0 : ℤ → Option α := fun j => if j < 0 then none else array[j.toNat]?
  let f := (shuffleLoop f0 (jsStringHash seed) n).1
  (List.range n).map fun (i : ℕ) => f (i : ℤ)

/-- Model of `selectRandomItems`: shuffle, then `slice(0, count)`. -/
def selectRandomItems (items : List α) (count : ℕ) (seed : Str) :
    List (Option α) :=
  (seededShuffle items seed).take count

/-- The index window `0 .. n-1` of an array-as-map, as read back by the
final `return shuffled` (proof helper). -/
def windowOf (f : ℤ → Option α) (n : ℕ) : List (Option α) :=
  (List.range n).map fun (i : ℕ) => f (i : ℤ)

/-! ### Word-match content (src/server/lib/content.ts) -/

/-- Bank item `w1`. -/
def bankW1 : WordMatchItem :=
  { id := "w1", prompt_en := "embarrassed", direction := "EN->L2",
    choices := [⟨"A", "embarazada"⟩, ⟨"B", "verlegen"⟩, ⟨"C", "peinlich"⟩],
    answerKey := "B",
    note := some "Verlegen means embarrassed/shy. Peinlich means embarrassing (adjective).",
    tags := some ["emotion", "de-DE"], variants := some ["schüchtern"] }

/-- Bank item `w2`. -/
def bankW2 : WordMatchItem :=
  { id := "w2", prompt_en := "kitchen", direction := "EN->L2",
    choices := [⟨"A", "die Küche"⟩, ⟨"B", "das Zimmer"⟩, ⟨"C", "der Keller"⟩],
    answerKey := "A",
    note := some "Die Küche is the kitchen. Das Zimmer is room, der Keller is basement.",
    tags := some ["house", "de-DE"], variants := none }

/-- Bank item `w3`. -/
def bankW3 : WordMatchItem :=
  { id := "w3", prompt_en := "friend", direction := "EN->L2",
    choices := [⟨"A", "der Feind"⟩, ⟨"B", "der Fremde"⟩, ⟨"C", "der Freund"⟩],
    answerKey := "C",
    note := some "Der Freund is friend (male). Der Feind is enemy, der Fremde is stranger.",
    tags := some ["people", "de-DE"], variants := some ["die Freundin"] }

/-- Bank item `w4`. -/
def bankW4 : WordMatchItem :=
  { id := "w4", prompt_en := "beautiful", direction := "EN->L2",
    choices := [⟨"A", "hässlich"⟩, ⟨"B", "schön"⟩, ⟨"C", "groß"⟩],
    answerKey := "B",
    note := some "Schön means beautiful. Hässlich means ugly, groß means big/tall.",
    tags := some ["adjective", "de-DE"], variants := none }

/-- Bank item `w5`. -/
def bankW5 : WordMatchItem :=
  { id := "w5", prompt_en := "to eat", direction := "EN->L2",
    choices := [⟨"A", "trinken"⟩, ⟨"B", "schlafen"⟩, ⟨"C", "essen"⟩],
    answerKey := "C",
    note := some "Essen means to eat. Trinken is to drink, schlafen is to sleep.",
    tags := some ["verb", "de-DE"], variants := none }

/-- Bank item `w6`. -/
def bankW6 : WordMatchItem :=
  { id := "w6", prompt_en := "car", direction := "EN->L2",
    choices := [⟨"A", "das Auto"⟩, ⟨"B", "der Zug"⟩, ⟨"C", "das Fahrrad"⟩],
    answerKey := "A",
    note := some "Das Auto is car. Der Zug is train, das Fahrrad is bicycle.",
    tags := some ["transport", "de-DE"], variants := none }

/-- Bank item `w7`. -/
def bankW7 : WordMatchItem :=
  { id := "w7", prompt_en := "water", direction := "EN->L2",
    choices := [⟨"A", "das Bier"⟩, ⟨"B", "das Wasser"⟩, ⟨"C", "der Wein"⟩],
    answerKey := "B",
    note := some "Das Wasser is water. Das Bier is beer, der Wein is wine.",
    tags := some ["drink", "de-DE"], variants := none }

/-- Bank item `w8`. -/
def bankW8 : WordMatchItem :=
  { id := "w8", prompt_en := "house", direction := "EN->L2",
    choices := [⟨"A", "das Haus"⟩, ⟨"B", "die Straße"⟩, ⟨"C", "der Park"⟩],
    answerKey := "A",
    note := some "Das Haus is house. Die Straße is street, der Park is park.",
    tags := some ["building", "de-DE"], variants := none }

/-- Bank item `w9`. -/
def bankW9 : WordMatchItem :=
  { id := "w9", prompt_en := "good", direction := "EN->L2",
    choices := [⟨"A", "schlecht"⟩, ⟨"B", "gut"⟩, ⟨"C", "okay"⟩],
    answerKey := "B",
    note := some "Gut means good. Schlecht means bad, okay means okay.",
    tags := some ["adjective", "de-DE"], variants := none }

/-- Bank item `w10`. -/
def bankW10 : WordMatchItem :=
  { id := "w10", prompt_en := "dog", direction := "EN->L2",
    choices := [⟨"A", "die Katze"⟩, ⟨"B", "der Vogel"⟩, ⟨"C", "der Hund"⟩],
    answerKey := "C",
    note := some "Der Hund is dog. Die Katze is cat, der Vogel is bird.",
    tags := some ["animal", "de-DE"], variants := none }

/-- Bank item `w11`. -/
def bankW11 : WordMatchItem :=
  { id := "w11", prompt_en := "book", direction := "EN->L2",
    choices := [⟨"A", "das Buch"⟩, ⟨"B", "der Stift"⟩, ⟨"C", "das Papier"⟩],
    answerKey := "A",
    note := some "Das Buch is book. Der Stift is pen, das Papier is paper.",
    tags := some ["object", "de-DE"], variants := none }

/-- Bank item `w12`. -/
def bankW12 : WordMatchItem :=
  { id := "w12", prompt_en := "red", direction := "EN->L2",
    choices := [⟨"A", "blau"⟩, ⟨"B", "rot"⟩, ⟨"C", "grün"⟩],
    answerKey := "B",
    note := some "Rot means red. Blau is blue, grün is green.",
    tags := some ["color", "de-DE"], variants := none }

/-- The built-in `GERMAN_WORD_BANK`. -/
def GERMAN_WORD_BANK : List WordMatchItem :=
  [bankW1, bankW2, bankW3, bankW4, bankW5, bankW6,
   bankW7, bankW8, bankW9, bankW10, bankW11, bankW12]

/-- Key-value store state backing word-match content: the cached puzzles
(`wm:puzzle:<seed>`) and the word banks (`wm:bank:<lang>`). -/
structure GameState where
  puzzles : Str → Option WordMatchDaily
  wordBanks : Str → Option (List WordMatchItem)

/-- Model of `GameStorage.getPuzzle`. -/
def GameStorage.getPuzzle (st : GameState) (seed : Str) :
    Option WordMatchDaily :=
  st.puzzles seed

/-- Model of `GameStorage.savePuzzle` (keyed by `puzzle.id`). -/
def GameStorage.savePuzzle (st : GameState) (puzzle : WordMatchDaily) :
    GameState :=
  { st with puzzles := fun k => if k = puzzle.id then some puzzle else st.puzzles k }

/-- Model of `GameStorage.getWordBank`. -/
def GameStorage.getWordBank (st : GameState) (lang : Str) :
    Option (List WordMatchItem) :=
  st.wordBanks lang

/-- Model of `GameStorage.saveWordBank`. -/
def GameStorage.saveWordBank (st : GameState) (lang : Str)
    (items : List WordMatchItem) : GameState :=
  { st with wordBanks := fun k => if k = lang then some items else st.wordBanks k }

/-- Model of `ContentManager.generatePuzzleFromBank`: load (or initialize)
the German word bank, select 8 items with the seeded shuffle, parse the
seed as `date:lang`, and assemble the puzzle.  An empty date part raises
`Invalid seed format`. -/
def ContentManager.generatePuzzleFromBank (seed : Str) (st : GameState) :
    Except String (WordMatchDaily × GameState) :=
  let bankLoad : List WordMatchItem × GameState :=
    match GameStorage.getWordBank st ("de".data) with
    | some bank => (bank, st)
    | none => (GERMAN_WORD_BANK, GameStorage.saveWordBank st ("de".data) GERMAN_WORD_BANK)
  let wordBank := bankLoad.1
  let selectedItems := selectRandomItems wordBank 8 seed
  let parts := seed.splitOn ':'
  let dateStr := parts.headD []
  if dateStr = [] then
    .error "Invalid seed format"
  else
    let lang : Str :=
      match parts[1]? with
      | some l => if l = [] then "de".data else l
      | none => "de".data
    .ok ({ id := seed, lang := lang, date := dateStr, items := selectedItems,
           meta := some { author := some "system", source := none, difficulty := some 1 } },
         bankLoad.2)

/-- Model of `ContentManager.getDailyPuzzle`: return the cached puzzle for
the seed if present, otherwise generate one from the bank and cache it. -/
def ContentManager.getDailyPuzzle (seed : Str) (st : GameState) :
    Except String (WordMatchDaily × GameState) :=
  match GameStorage.getPuzzle st seed with
  | some puzzle => .ok (puzzle, st)
  | none =>
    match ContentManager.generatePuzzleFromBank seed st with
    | .error e => .error e
    | .ok (puzzle, st₁) => .ok (puzzle, GameStorage.savePuzzle st₁ puzzle)

/-! ### Hangman scoring (src/server/lib/hangman.ts) -/

/-- The inline `new Set(word.toLowerCase().split('')).size` of
`calculateScore`: the number of distinct characters of the lower-cased
word. -/
def uniqueLettersInWord (word : Str) : ℕ :=
  (lowerStr word).dedup.length

/-- Model of `HangmanManager.calculateScore`.  Integer accumulation is
exact in binary64; the two fractional operations (`timeMs / 1000` and the
loss-branch `(correctGuesses / uniqueLetters) * 50`) round via `fpRound`.
The loss branch requires a nonempty word (in JavaScript an empty word
would divide by zero). -/
def HangmanManager.calculateScore (word : Str) (guesses : List HangmanGuess)
    (success : Bool) (timeMs : ℕ) : ℤ × Bool :=
  let score : ℤ :=
    if success then
      let incorrectGuesses : ℤ := ((guesses.filter fun g => !g.correct).length : ℤ)
      let remainingAttempts := 6 - incorrectGuesses
      let timeSeconds := fpRound ((timeMs : ℚ) / 1000)
      let timeBonus : ℤ :=
        if timeSeconds < 30 then 50
        else if timeSeconds < 60 then 30
        else if timeSeconds < 90 then 15
        else 0
      let uniqueLetters := uniqueLettersInWord word
      let correctGuesses := (guesses.filter fun g => g.correct).length
      let efficiencyBonus : ℤ :=
        if correctGuesses ≤ uniqueLetters then 50
        else if correctGuesses ≤ uniqueLetters + 2 then 25
        else 0
      100 + remainingAttempts * 15 + timeBonus + efficiencyBonus
    else
      let uniqueLetters := uniqueLettersInWord word
      let correctGuesses := (guesses.filter fun g => g.correct).length
      let progressPercentage := fpRound ((correctGuesses : ℚ) / (uniqueLetters : ℚ))
      ⌊fpRound (progressPercentage * 50)⌋
  let perfect := success && !(guesses.any fun g => !g.correct)
  (score, perfect)

/-! ### Demonstration constants used by concrete witnesses -/

/-- The daily seed used by the idempotence witness (its 32-bit hash is
non-negative). -/
def c8Seed : Str := "2023-11-05:de".data

/-- An initially empty content store. -/
def c8State0 : GameState :=
  { puzzles := fun _ => none, wordBanks := fun _ => none }

/-- The puzzle produced for `c8Seed` from the built-in bank. -/
def c8Puzzle : WordMatchDaily :=
  { id := c8Seed, lang := "de".data, date := "2023-11-05".data,
    items := [some bankW10, some bankW5, some bankW11, some bankW9,
              some bankW8, some bankW4, some bankW3, some bankW1],
    meta := some { author := some "system", source := none, difficulty := some 1 } }

/-- The store state after the first `getDailyPuzzle c8Seed` call. -/
def c8State1 : GameState :=
  GameStorage.savePuzzle
    (GameStorage.saveWordBank c8State0 ("de".data) GERMAN_WORD_BANK) c8Puzzle


/-! ### Helper lemmas -/

/-- The pass threshold `Math.ceil(totalItems * 0.625)` in integer form. -/
theorem ceil_five_eighths (t : ℕ) :
    (⌈(t : ℚ) * 0.625⌉ : ℤ) = ((5 * t + 7) / 8 : ℕ) := by
  have hdm := Nat.div_add_mod (5 * t + 7) 8
  have hm : (5 * t + 7) % 8 < 8 := Nat.mod_lt _ (by norm_num)
  set q := (5 * t + 7) / 8 with hq
  have h8 : (8 : ℚ) * q + ((5 * t + 7) % 8 : ℕ) = 5 * t + 7 := by
    exact_mod_cast hdm
  have hm7 : (5 * t + 7) % 8 ≤ 7 := by omega
  have hmq : ((5 * t + 7) % 8 : ℕ) ≤ (7 : ℚ) := by exact_mod_cast hm7
  have hnn : (0 : ℚ) ≤ ((5 * t + 7) % 8 : ℕ) := by positivity
  rw [Int.ceil_eq_iff, show (0.625 : ℚ) = 5 / 8 by norm_num]
  constructor
  · push_cast
    linarith
  · push_cast
    linarith

/-- The pass flag of `updateStreak` in integer form. -/
theorem updateStreak_passed_iff (streak score total : ℕ) :
    (updateStreak streak score total).2 = true ↔ (5 * total + 7) / 8 ≤ score := by
  simp only [updateStreak, decide_eq_true_eq, ceil_five_eighths]
  exact_mod_cast Iff.rfl

/-! ### Claim theorems -/

/-- C3: `computeScore` counts the correct answers, `perfect` holds exactly
when every answer is correct, and `updateStreak` passes exactly when
`score ≥ ⌈totalItems * 0.625⌉` (equivalently `score ≥ (5*total+7)/8`); in
particular 5 of 8 passes and 4 of 8 does not. -/
theorem computeScore_updateStreak_spec :
    ∀ (answers : List GameAnswer) (streak score total : ℕ),
      (computeScore answers).1 = answers.countP (fun a => a.correct) ∧
      ((computeScore answers).2 = true ↔
        (computeScore answers).1 = answers.length) ∧
      ((updateStreak streak score total).2 = true ↔ (5 * total + 7) / 8 ≤ score) ∧
      (updateStreak streak score total).1 =
        (if (5 * total + 7) / 8 ≤ score then streak + 1 else 0) ∧
      (updateStreak 0 5 8).2 = true ∧ (updateStreak 0 4 8).2 = false := by
  intro answers streak score total
  have hfst : (updateStreak streak score total).1 =
      if (updateStreak streak score total).2 = true then streak + 1 else 0 := rfl
  refine ⟨?_, ?_, updateStreak_passed_iff streak score total, ?_, ?_, ?_⟩
  · simp [computeScore, List.countP_eq_length_filter]
  · simp [computeScore]
  · by_cases h : (5 * total + 7) / 8 ≤ score
    · rw [if_pos h, hfst, (updateStreak_passed_iff streak score total).mpr h]
      simp
    · have hf : (updateStreak streak score total).2 = false := by
        cases hE : (updateStreak streak score total).2
        · rfl
        · exact absurd ((updateStreak_passed_iff streak score total).mp hE) h
      rw [if_neg h, hfst, hf]
      simp
  · exact (updateStreak_passed_iff 0 5 8).mpr (by norm_num)
  · rw [← Bool.not_eq_true, updateStreak_passed_iff]
    norm_num

/-- C4: on every submitted result the persisted streak is the incremented
streak on a pass and zero otherwise, the persisted high-water mark is the
maximum of the previous one and the new streak (hence never decreases),
and `lastPlayed` becomes the session seed. -/
theorem submitResultUpdate_spec :
    ∀ (st : UserState) (answers : List GameAnswer) (seed : String),
      ((submitResultUpdate st answers seed).1).streak =
        (if (updateStreak st.streak (computeScore answers).1 answers.length).2
         then st.streak + 1 else 0) ∧
      ((submitResultUpdate st answers seed).1).maxStreak =
        max st.maxStreak ((submitResultUpdate st answers seed).1).streak ∧
      st.maxStreak ≤ ((submitResultUpdate st answers seed).1).maxStreak ∧
      ((submitResultUpdate st answers seed).1).lastPlayed = some seed := by
  intro st answers seed
  exact ⟨rfl, rfl, le_max_left _ _, rfl⟩

/-- C5: both difficulty classifiers are total functions of the character
length alone: at most 5 characters is easy, 6 to 9 is medium, 10 or more
is hard; lower-casing does not change the length, so the two classifiers
agree on every word. -/
theorem estimateDifficulty_spec :
    ∀ w : Str,
      (RandomWordsAPI.estimateDifficulty w = .easy ↔ w.length ≤ 5) ∧
      (RandomWordsAPI.estimateDifficulty w = .medium ↔
        6 ≤ w.length ∧ w.length ≤ 9) ∧
      (RandomWordsAPI.estimateDifficulty w = .hard ↔ 10 ≤ w.length) ∧
      OpenThesaurusAPI.estimateWordDifficulty w =
        RandomWordsAPI.estimateDifficulty w := by
  intro w
  have hlen : (lowerStr w).length = w.length := List.length_map _ _
  simp only [RandomWordsAPI.estimateDifficulty,
    OpenThesaurusAPI.estimateWordDifficulty, hlen]
  split_ifs with h1 h2 <;> refine ⟨?_, ?_, ?_, trivial⟩ <;> simp <;> omega

/-- Appending to one tier leaves every other tier unchanged. -/
theorem getWords_push (st : Pools) (d : HangmanDifficulty) (w : HangmanWord) :
    WordEnricherRedis.getWords (st.push d w) d =
      WordEnricherRedis.getWords st d ++ [w] ∧
    ∀ d', d' ≠ d →
      WordEnricherRedis.getWords (st.push d w) d' =
        WordEnricherRedis.getWords st d' := by
  cases d <;>
    exact ⟨rfl, by intro d' hd'; cases d' <;> simp_all [WordEnricherRedis.getWords, Pools.push]⟩

/-- C6: `addWord` rejects, without touching the pool, any word whose
normalization already occurs case-insensitively in some tier, and
otherwise appends the normalized word (classified when no tier is given)
to exactly one tier and returns true; adding "Apfel" and then "apfel "
to an empty pool returns true and then false. -/
theorem addWord_spec :
    ∀ (word : Str) (hint : String) (difficulty : Option HangmanDifficulty)
      (st : Pools),
      ((∃ w ∈ st.allWords, lowerStr w.word = trimStr (lowerStr word)) →
        WordEnricherRedis.addWord word hint difficulty st = (false, st)) ∧
      ((¬ ∃ w ∈ st.allWords, lowerStr w.word = trimStr (lowerStr word)) →
        WordEnricherRedis.addWord word hint difficulty st =
          (true,
           st.push
             (difficulty.getD
               (RandomWordsAPI.estimateDifficulty (trimStr (lowerStr word))))
             ⟨trimStr (lowerStr word), hint⟩) ∧
        ∃ d : HangmanDifficulty,
          WordEnricherRedis.getWords (WordEnricherRedis.addWord word hint difficulty st).2 d =
            WordEnricherRedis.getWords st d ++ [⟨trimStr (lowerStr word), hint⟩] ∧
          ∀ d', d' ≠ d →
            WordEnricherRedis.getWords (WordEnricherRedis.addWord word hint difficulty st).2 d' =
              WordEnricherRedis.getWords st d') ∧
      (WordEnricherRedis.addWord "Apfel".data "Obst" none
        { easy := [], medium := [], hard := [] }).1 = true ∧
      (WordEnricherRedis.addWord "apfel ".data "Obst" none
        (WordEnricherRedis.addWord "Apfel".data "Obst" none
          { easy := [], medium := [], hard := [] }).2).1 = false := by
  intro word hint difficulty st
  have hcond : (st.allWords.any fun w =>
      lowerStr w.word = trimStr (lowerStr word)) = true ↔
      ∃ w ∈ st.allWords, lowerStr w.word = trimStr (lowerStr word) := by
    simp [List.any_eq_true]
  refine ⟨?_, ?_, by decide, by decide⟩
  · intro hex
    simp only [WordEnricherRedis.addWord, hcond.mpr hex, if_true]
  · intro hnex
    have hfalse : (st.allWords.any fun w =>
        lowerStr w.word = trimStr (lowerStr word)) = false := by
      cases hE : st.allWords.any fun w => lowerStr w.word = trimStr (lowerStr word)
      · rfl
      · exact absurd (hcond.mp hE) hnex
    have heq : WordEnricherRedis.addWord word hint difficulty st =
        (true,
         st.push
           (difficulty.getD
             (RandomWordsAPI.estimateDifficulty (trimStr (lowerStr word))))
           ⟨trimStr (lowerStr word), hint⟩) := by
      simp only [WordEnricherRedis.addWord, hfalse, Bool.false_eq_true, if_false]
      cases difficulty <;> rfl
    refine ⟨heq, ⟨difficulty.getD
      (RandomWordsAPI.estimateDifficulty (trimStr (lowerStr word))), ?_, ?_⟩⟩
    · rw [heq]
      exact (getWords_push st _ _).1
    · intro d' hd'
      rw [heq]
      exact (getWords_push st _ _).2 d' hd'

/-- A puzzle generated from the bank carries the requested seed as id. -/
theorem generatePuzzleFromBank_id (seed : Str) (st : GameState)
    (pr : WordMatchDaily × GameState) :
    ContentManager.generatePuzzleFromBank seed st = .ok pr → pr.1.id = seed := by
  simp only [ContentManager.generatePuzzleFromBank]
  split_ifs with h
  · intro hcontra
    cases hcontra
  · intro hok
    cases hok
    rfl

/-- After a successful `getDailyPuzzle`, the returned state caches the
returned puzzle under the seed. -/
theorem getDailyPuzzle_caches (seed : Str) (st : GameState)
    (p : WordMatchDaily) (st₁ : GameState) :
    ContentManager.getDailyPuzzle seed st = .ok (p, st₁) →
    st₁.puzzles seed = some p := by
  simp only [ContentManager.getDailyPuzzle]
  cases hc : GameStorage.getPuzzle st seed with
  | some q =>
    intro hok
    cases hok
    exact hc
  | none =>
    cases hg : ContentManager.generatePuzzleFromBank seed st with
    | error e =>
      intro hcontra
      cases hcontra
    | ok pr =>
      intro hok
      have hid : pr.1.id = seed := generatePuzzleFromBank_id seed st pr hg
      cases hok
      simp [GameStorage.savePuzzle, hid]

/-- C8: `getDailyPuzzle` is idempotent per seed: once a call has produced
and cached a puzzle, any later call with the same seed — against any store
whose cache entry for that seed is unchanged, regardless of how the word
bank has grown — returns exactly the same puzzle and leaves the store
untouched. -/
theorem getDailyPuzzle_idempotent (seed : Str) (st : GameState)
    (p : WordMatchDaily) (st₁ st₂ : GameState) :
    ContentManager.getDailyPuzzle seed st = .ok (p, st₁) →
    st₂.puzzles seed = st₁.puzzles seed →
    ContentManager.getDailyPuzzle seed st₂ = .ok (p, st₂) := by
  intro hfirst hsame
  have hcache : st₂.puzzles seed = some p :=
    hsame.trans (getDailyPuzzle_caches seed st p st₁ hfirst)
  simp only [ContentManager.getDailyPuzzle, GameStorage.getPuzzle, hcache]

/-- Witness for C8: running `getDailyPuzzle` on the demonstration seed
twice returns the very same eight-item puzzle, by applying the idempotence
theorem to the concretely evaluated first call. -/
theorem getDailyPuzzle_idempotent_witness :
    ContentManager.getDailyPuzzle c8Seed c8State1 = .ok (c8Puzzle, c8State1) :=
  getDailyPuzzle_idempotent c8Seed c8State0 c8Puzzle c8State1 c8State1 rfl rfl

/-- C9: once the pool of a tier is non-empty, `getWordByIndex` cannot fail
for any non-negative index and returns the entry at the index modulo the
pool size; if the pool is empty and remains empty after the fallback
enrichment it fails with the explicit no-words error instead of attempting
a modulo-by-zero selection. -/
theorem getWordByIndex_spec :
    ∀ (d : HangmanDifficulty) (idx : ℕ) (fetched : List HangmanWord)
      (st : Pools),
      (∀ h : WordEnricherRedis.getWords st d ≠ [],
        getWordByIndex d idx fetched st =
          .ok ((WordEnricherRedis.getWords st d).get
                ⟨idx % (WordEnricherRedis.getWords st d).length,
                 Nat.mod_lt _ (List.length_pos.mpr h)⟩, st)) ∧
      (WordEnricherRedis.getWords st d = [] →
        WordEnricherRedis.getWords
          (WordEnricherRedis.enrichWithRandomGermanWords fetched st).2 d = [] →
        getWordByIndex d idx fetched st = .error "No words available in Redis") := by
  intro d idx fetched st
  constructor
  · intro h
    simp only [getWordByIndex]
    rw [dif_neg h]
  · intro h1 h2
    simp only [getWordByIndex]
    rw [dif_pos h1, dif_pos h2]

/-- Witness for C9: both branches of the theorem at concrete pools — a
one-word easy pool serves index 7 by wraparound, and a pool that stays
empty after an empty enrichment response yields the explicit error. -/
theorem getWordByIndex_spec_witness :
    getWordByIndex .easy 7 []
        { easy := [⟨"haus".data, "Wohnort"⟩], medium := [], hard := [] } =
      .ok (⟨"haus".data, "Wohnort"⟩,
        { easy := [⟨"haus".data, "Wohnort"⟩], medium := [], hard := [] }) ∧
    getWordByIndex .hard 3 [] { easy := [], medium := [], hard := [] } =
      .error "No words available in Redis" :=
  ⟨(getWordByIndex_spec .easy 7 []
      { easy := [⟨"haus".data, "Wohnort"⟩], medium := [], hard := [] }).1
        (by decide),
   (getWordByIndex_spec .hard 3 [] { easy := [], medium := [], hard := [] }).2
     (by decide) (by decide)⟩

/-- Membership in the pool survives appending to any tier. -/
theorem allWords_push_mem (st : Pools) (d : HangmanDifficulty)
    (v : HangmanWord) :
    ∀ x ∈ st.allWords, x ∈ (st.push d v).allWords := by
  intro x hx
  cases d <;> simp_all [Pools.allWords, Pools.push] <;> tauto

/-- Appending to any tier is, up to order, appending to the combined
pool. -/
theorem allWords_push_perm (st : Pools) (d : HangmanDifficulty)
    (v : HangmanWord) :
    ((st.push d v).allWords).Perm (st.allWords ++ [v]) := by
  cases d <;> refine List.perm_iff_count.mpr fun x => ?_ <;>
    (simp [Pools.push, Pools.allWords, List.count_append, List.count_cons];
     try omega)


/-- Specification of the shared enrichment loop: each tier is extended by
some batch of new entries, the returned counter counts exactly the
appended entries, every appended entry is case-insensitively fresh with
respect to the starting pool, and case-insensitive uniqueness of the pool
is preserved. -/
theorem enrichLoop_spec (classify : Str → HangmanDifficulty) :
    ∀ (fetched : List HangmanWord) (st : Pools) (added : ℕ),
      ∃ ne nm nh : List HangmanWord,
        (enrichLoop classify fetched st added).2.easy = st.easy ++ ne ∧
        (enrichLoop classify fetched st added).2.medium = st.medium ++ nm ∧
        (enrichLoop classify fetched st added).2.hard = st.hard ++ nh ∧
        (enrichLoop classify fetched st added).1 =
          added + (ne.length + nm.length + nh.length) ∧
        (∀ e ∈ ne ++ nm ++ nh, ∀ w ∈ st.allWords,
          lowerStr e.word ≠ lowerStr w.word) ∧
        ((st.allWords.map fun w => lowerStr w.word).Nodup →
          ((enrichLoop classify fetched st added).2.allWords.map
            fun w => lowerStr w.word).Nodup) := by
  intro fetched
  induction fetched with
  | nil =>
    intro st added
    exact ⟨[], [], [], by simp [enrichLoop], by simp [enrichLoop],
      by simp [enrichLoop], by simp [enrichLoop], by simp,
      fun h => by simpa [enrichLoop] using h⟩
  | cons w rest ih =>
    intro st added
    by_cases hex : (st.allWords.any fun x =>
        lowerStr x.word = lowerStr w.word) = true
    · have hstep : enrichLoop classify (w :: rest) st added =
          enrichLoop classify rest st added := by
        simp only [enrichLoop, hex, if_true]
      rw [hstep]
      exact ih st added
    · have hb : (st.allWords.any fun x =>
          lowerStr x.word = lowerStr w.word) = false := by
        cases hE : st.allWords.any fun x => lowerStr x.word = lowerStr w.word
        · rfl
        · exact absurd hE hex
      have hwfresh : ∀ x ∈ st.allWords, lowerStr w.word ≠ lowerStr x.word := by
        intro x hx heq
        have : (st.allWords.any fun y =>
            lowerStr y.word = lowerStr w.word) = true :=
          List.any_eq_true.mpr ⟨x, hx, by simp [heq]⟩
        rw [this] at hb
        cases hb
      have hstep : enrichLoop classify (w :: rest) st added =
          enrichLoop classify rest (st.push (classify w.word) w) (added + 1) := by
        simp only [enrichLoop, hb, Bool.false_eq_true, if_false]
      cases hcd : classify w.word with
      | easy =>
        rw [hcd] at hstep
        rw [hstep]
        obtain ⟨ne', nm', nh', h1e, h1m, h1h, hcount, hfresh, hnodup⟩ :=
          ih (st.push .easy w) (added + 1)
        have hfresh' : ∀ e ∈ ne' ++ nm' ++ nh', ∀ x ∈ st.allWords,
            lowerStr e.word ≠ lowerStr x.word := by
          intro e he x hx
          exact hfresh e he x (allWords_push_mem st .easy w x hx)
        have hnodup' : (st.allWords.map fun x => lowerStr x.word).Nodup →
            ((enrichLoop classify rest (st.push .easy w)
              (added + 1)).2.allWords.map fun x => lowerStr x.word).Nodup := by
          intro hnd
          apply hnodup
          have hperm : (((st.push .easy w).allWords).map
              fun x => lowerStr x.word).Perm
              ((st.allWords ++ [w]).map fun x => lowerStr x.word) :=
            (allWords_push_perm st .easy w).map _
          rw [hperm.nodup_iff, List.map_append, List.nodup_append]
          refine ⟨hnd, List.nodup_singleton _, ?_⟩
          intro a ha hb'
          simp only [List.map_singleton, List.mem_singleton] at hb'
          obtain ⟨x, hx, hxa⟩ := List.mem_map.mp ha
          exact hwfresh x hx (by rw [hb'] at hxa; exact hxa.symm)
        refine ⟨w :: ne', nm', nh', ?_, ?_, ?_, ?_, ?_, hnodup'⟩
        · rw [h1e]
          simp [Pools.push]
        · rw [h1m]
          simp [Pools.push]
        · rw [h1h]
          simp [Pools.push]
        · rw [hcount]
          simp only [List.length_cons]
          omega
        · intro e he x hx
          rcases List.mem_append.mp he with he1 | he2
          · rcases List.mem_append.mp he1 with he3 | he4
            · rcases List.mem_cons.mp he3 with rfl | he5
              · exact hwfresh x hx
              · exact hfresh' e (by simp [he5]) x hx
            · exact hfresh' e (by simp [he4]) x hx
          · exact hfresh' e (by simp [he2]) x hx
      | medium =>
        rw [hcd] at hstep
        rw [hstep]
        obtain ⟨ne', nm', nh', h1e, h1m, h1h, hcount, hfresh, hnodup⟩ :=
          ih (st.push .medium w) (added + 1)
        have hfresh' : ∀ e ∈ ne' ++ nm' ++ nh', ∀ x ∈ st.allWords,
            lowerStr e.word ≠ lowerStr x.word := by
          intro e he x hx
          exact hfresh e he x (allWords_push_mem st .medium w x hx)
        have hnodup' : (st.allWords.map fun x => lowerStr x.word).Nodup →
            ((enrichLoop classify rest (st.push .medium w)
              (added + 1)).2.allWords.map fun x => lowerStr x.word).Nodup := by
          intro hnd
          apply hnodup
          have hperm : (((st.push .medium w).allWords).map
              fun x => lowerStr x.word).Perm
              ((st.allWords ++ [w]).map fun x => lowerStr x.word) :=
            (allWords_push_perm st .medium w).map _
          rw [hperm.nodup_iff, List.map_append, List.nodup_append]
          refine ⟨hnd, List.nodup_singleton _, ?_⟩
          intro a ha hb'
          simp only [List.map_singleton, List.mem_singleton] at hb'
          obtain ⟨x, hx, hxa⟩ := List.mem_map.mp ha
          exact hwfresh x hx (by rw [hb'] at hxa; exact hxa.symm)
        refine ⟨ne', w :: nm', nh', ?_, ?_, ?_, ?_, ?_, hnodup'⟩
        · rw [h1e]
          simp [Pools.push]
        · rw [h1m]
          simp [Pools.push]
        · rw [h1h]
          simp [Pools.push]
        · rw [hcount]
          simp only [List.length_cons]
          omega
        · intro e he x hx
          rcases List.mem_append.mp he with he1 | he2
          · rcases List.mem_append.mp he1 with he3 | he4
            · exact hfresh' e (by simp [he3]) x hx
            · rcases List.mem_cons.mp he4 with rfl | he5
              · exact hwfresh x hx
              · exact hfresh' e (by simp [he5]) x hx
          · exact hfresh' e (by simp [he2]) x hx
      | hard =>
        rw [hcd] at hstep
        rw [hstep]
        obtain ⟨ne', nm', nh', h1e, h1m, h1h, hcount, hfresh, hnodup⟩ :=
          ih (st.push .hard w) (added + 1)
        have hfresh' : ∀ e ∈ ne' ++ nm' ++ nh', ∀ x ∈ st.allWords,
            lowerStr e.word ≠ lowerStr x.word := by
          intro e he x hx
          exact hfresh e he x (allWords_push_mem st .hard w x hx)
        have hnodup' : (st.allWords.map fun x => lowerStr x.word).Nodup →
            ((enrichLoop classify rest (st.push .hard w)
              (added + 1)).2.allWords.map fun x => lowerStr x.word).Nodup := by
          intro hnd
          apply hnodup
          have hperm : (((st.push .hard w).allWords).map
              fun x => lowerStr x.word).Perm
              ((st.allWords ++ [w]).map fun x => lowerStr x.word) :=
            (allWords_push_perm st .hard w).map _
          rw [hperm.nodup_iff, List.map_append, List.nodup_append]
          refine ⟨hnd, List.nodup_singleton _, ?_⟩
          intro a ha hb'
          simp only [List.map_singleton, List.mem_singleton] at hb'
          obtain ⟨x, hx, hxa⟩ := List.mem_map.mp ha
          exact hwfresh x hx (by rw [hb'] at hxa; exact hxa.symm)
        refine ⟨ne', nm', w :: nh', ?_, ?_, ?_, ?_, ?_, hnodup'⟩
        · rw [h1e]
          simp [Pools.push]
        · rw [h1m]
          simp [Pools.push]
        · rw [h1h]
          simp [Pools.push]
        · rw [hcount]
          simp only [List.length_cons]
          omega
        · intro e he x hx
          rcases List.mem_append.mp he with he1 | he2
          · rcases List.mem_append.mp he1 with he3 | he4
            · exact hfresh' e (by simp [he3]) x hx
            · exact hfresh' e (by simp [he4]) x hx
          · rcases List.mem_cons.mp he2 with rfl | he5
            · exact hwfresh x hx
            · exact hfresh' e (by simp [he5]) x hx

/-- C7: neither enrichment operation ever adds a word that is already
present case-insensitively in any tier, each only appends fresh entries at
the tier ends (so the case-insensitive cross-tier uniqueness invariant of
the pool is preserved), and the returned integer equals exactly the number
of entries appended across the three tiers. -/
theorem enrichment_preserves_pool_uniqueness :
    ∀ (fetched selected : List HangmanWord) (st₁ st₂ : Pools),
      (∃ ne nm nh : List HangmanWord,
        (WordEnricherRedis.enrichWithRandomGermanWords fetched st₁).2.easy =
          st₁.easy ++ ne ∧
        (WordEnricherRedis.enrichWithRandomGermanWords fetched st₁).2.medium =
          st₁.medium ++ nm ∧
        (WordEnricherRedis.enrichWithRandomGermanWords fetched st₁).2.hard =
          st₁.hard ++ nh ∧
        (WordEnricherRedis.enrichWithRandomGermanWords fetched st₁).1 =
          ne.length + nm.length + nh.length ∧
        (∀ e ∈ ne ++ nm ++ nh, ∀ w ∈ st₁.allWords,
          lowerStr e.word ≠ lowerStr w.word) ∧
        ((st₁.allWords.map fun w => lowerStr w.word).Nodup →
          ((WordEnricherRedis.enrichWithRandomGermanWords fetched st₁).2.allWords.map
            fun w => lowerStr w.word).Nodup)) ∧
      (∃ ne nm nh : List HangmanWord,
        (WordEnricherRedis.searchAndAddWords selected st₂).2.easy =
          st₂.easy ++ ne ∧
        (WordEnricherRedis.searchAndAddWords selected st₂).2.medium =
          st₂.medium ++ nm ∧
        (WordEnricherRedis.searchAndAddWords selected st₂).2.hard =
          st₂.hard ++ nh ∧
        (WordEnricherRedis.searchAndAddWords selected st₂).1 =
          ne.length + nm.length + nh.length ∧
        (∀ e ∈ ne ++ nm ++ nh, ∀ w ∈ st₂.allWords,
          lowerStr e.word ≠ lowerStr w.word) ∧
        ((st₂.allWords.map fun w => lowerStr w.word).Nodup →
          ((WordEnricherRedis.searchAndAddWords selected st₂).2.allWords.map
            fun w => lowerStr w.word).Nodup)) := by
  intro fetched selected st₁ st₂
  constructor
  · obtain ⟨ne, nm, nh, h1, h2, h3, hc, hf, hn⟩ :=
      enrichLoop_spec RandomWordsAPI.estimateDifficulty fetched st₁ 0
    exact ⟨ne, nm, nh, h1, h2, h3, by simpa using hc, hf, hn⟩
  · obtain ⟨ne, nm, nh, h1, h2, h3, hc, hf, hn⟩ :=
      enrichLoop_spec OpenThesaurusAPI.estimateWordDifficulty selected st₂ 0
    exact ⟨ne, nm, nh, h1, h2, h3, by simpa using hc, hf, hn⟩

/-- Witness for C7: the enrichment theorem applied to a concrete batch —
a fetched capitalized umlaut word `Äpfel` over a pool already holding
`äpfel` — so the case-insensitive skip-guard is exercised on a German
case-pair. -/
theorem enrichment_preserves_pool_uniqueness_witness :
    ∃ ne nm nh : List HangmanWord,
      (WordEnricherRedis.enrichWithRandomGermanWords
        [⟨"Äpfel".data, "Obst"⟩]
        { easy := [⟨"äpfel".data, "Obst"⟩], medium := [], hard := [] }).2.easy =
        Pools.easy
          { easy := [⟨"äpfel".data, "Obst"⟩], medium := [], hard := [] } ++ ne ∧
      (WordEnricherRedis.enrichWithRandomGermanWords
        [⟨"Äpfel".data, "Obst"⟩]
        { easy := [⟨"äpfel".data, "Obst"⟩], medium := [], hard := [] }).2.medium =
        Pools.medium
          { easy := [⟨"äpfel".data, "Obst"⟩], medium := [], hard := [] } ++ nm ∧
      (WordEnricherRedis.enrichWithRandomGermanWords
        [⟨"Äpfel".data, "Obst"⟩]
        { easy := [⟨"äpfel".data, "Obst"⟩], medium := [], hard := [] }).2.hard =
        Pools.hard
          { easy := [⟨"äpfel".data, "Obst"⟩], medium := [], hard := [] } ++ nh ∧
      (WordEnricherRedis.enrichWithRandomGermanWords
        [⟨"Äpfel".data, "Obst"⟩]
        { easy := [⟨"äpfel".data, "Obst"⟩], medium := [], hard := [] }).1 =
        ne.length + nm.length + nh.length ∧
      (∀ e ∈ ne ++ nm ++ nh,
        ∀ w ∈ Pools.allWords
            { easy := [⟨"äpfel".data, "Obst"⟩], medium := [], hard := [] },
          lowerStr e.word ≠ lowerStr w.word) ∧
      (((Pools.allWords
          { easy := [⟨"äpfel".data, "Obst"⟩], medium := [], hard := [] }).map
          fun w => lowerStr w.word).Nodup →
        ((WordEnricherRedis.enrichWithRandomGermanWords
          [⟨"Äpfel".data, "Obst"⟩]
          { easy := [⟨"äpfel".data, "Obst"⟩], medium := [],
            hard := [] }).2.allWords.map
            fun w => lowerStr w.word).Nodup) :=
  (enrichment_preserves_pool_uniqueness [⟨"Äpfel".data, "Obst"⟩] []
    { easy := [⟨"äpfel".data, "Obst"⟩], medium := [], hard := [] }
    { easy := [], medium := [], hard := [] }).1

/-- Witness for C6: both branches of the `addWord` theorem at concrete
pools — a fresh word is appended and classified, and a case-insensitive
duplicate is rejected without change even across the German case-pair
`ÄPFEL`/`äpfel`. -/
theorem addWord_spec_witness :
    (WordEnricherRedis.addWord "Birne".data "Obst" none
        { easy := [], medium := [], hard := [] } =
      (true,
        Pools.push { easy := [], medium := [], hard := [] }
          ((none : Option HangmanDifficulty).getD
            (RandomWordsAPI.estimateDifficulty
              (trimStr (lowerStr "Birne".data))))
          ⟨trimStr (lowerStr "Birne".data), "Obst"⟩) ∧
      ∃ d : HangmanDifficulty,
        WordEnricherRedis.getWords
          (WordEnricherRedis.addWord "Birne".data "Obst" none
            { easy := [], medium := [], hard := [] }).2 d =
          WordEnricherRedis.getWords { easy := [], medium := [], hard := [] } d ++
            [⟨trimStr (lowerStr "Birne".data), "Obst"⟩] ∧
        ∀ d', d' ≠ d →
          WordEnricherRedis.getWords
            (WordEnricherRedis.addWord "Birne".data "Obst" none
              { easy := [], medium := [], hard := [] }).2 d' =
            WordEnricherRedis.getWords { easy := [], medium := [], hard := [] } d') ∧
    WordEnricherRedis.addWord "ÄPFEL".data "Obst" none
        { easy := [⟨"äpfel".data, "Obst"⟩], medium := [], hard := [] } =
      (false, { easy := [⟨"äpfel".data, "Obst"⟩], medium := [], hard := [] }) :=
  ⟨(addWord_spec "Birne".data "Obst" none
      { easy := [], medium := [], hard := [] }).2.1 (by decide),
   (addWord_spec "ÄPFEL".data "Obst" none
      { easy := [⟨"äpfel".data, "Obst"⟩], medium := [], hard := [] }).1
        (by decide)⟩

/-- Counting after `set`: the removed entry and the inserted entry balance
the count. -/
theorem count_set_add {β : Type _} [DecidableEq β] (w : List β) (n : ℕ)
    (hn : n < w.length) (a x : β) :
    (w.set n a).count x + (if w.get ⟨n, hn⟩ = x then 1 else 0) =
      w.count x + (if a = x then 1 else 0) := by
  rw [List.set_eq_take_cons_drop a hn]
  conv_rhs => rw [← List.take_append_drop n w]
  rw [List.drop_eq_getElem_cons hn]
  simp only [List.count_append, List.count_cons, List.get_eq_getElem,
    beq_iff_eq]
  split_ifs <;> ring

/-- Exchanging two entries of a list by a double `set` is a permutation. -/
theorem set_set_swap_perm {β : Type _} [DecidableEq β] (w : List β)
    (i j : ℕ) (hi : i < w.length) (hj : j < w.length) :
    ((w.set i (w.get ⟨j, hj⟩)).set j (w.get ⟨i, hi⟩)).Perm w := by
  refine List.perm_iff_count.mpr fun x => ?_
  have hj1 : j < (w.set i (w.get ⟨j, hj⟩)).length := by simpa using hj
  have hget : (w.set i (w.get ⟨j, hj⟩)).get ⟨j, hj1⟩ = w.get ⟨j, hj⟩ := by
    simp only [List.get_eq_getElem, List.getElem_set]
    split <;> rfl
  have e1 := count_set_add (w.set i (w.get ⟨j, hj⟩)) j hj1 (w.get ⟨i, hi⟩) x
  have e2 := count_set_add w i hi (w.get ⟨j, hj⟩) x
  rw [hget] at e1
  split_ifs at e1 e2 <;> omega

/-- The window of `windowOf` has length `n`. -/
theorem windowOf_length (f : ℤ → Option α) (n : ℕ) :
    (windowOf f n).length = n := by
  rw [windowOf, List.length_map, List.length_range]

/-- Windows read entries pointwise. -/
theorem windowOf_getElem (f : ℤ → Option α) (n : ℕ) (k : ℕ)
    (hk : k < (windowOf f n).length) :
    (windowOf f n).get ⟨k, hk⟩ = f (k : ℤ) := by
  simp only [windowOf, List.get_eq_getElem, List.getElem_map,
    List.getElem_range]

/-- Reading the window of the destructuring-swap function is a double
`set` of the window, provided both indices are in range. -/
theorem windowOf_swapfun (f : ℤ → Option α) (n : ℕ) (i j : ℤ)
    (hi0 : 0 ≤ i) (_hin : i < (n : ℤ)) (hj0 : 0 ≤ j) (_hjn : j < (n : ℤ)) :
    windowOf (fun k => if k = i then f j else if k = j then f i else f k) n =
      ((windowOf f n).set i.toNat (f j)).set j.toNat (f i) := by
  apply List.ext_getElem
  · simp only [windowOf_length, List.length_set]
  · intro k hk1 hk2
    have hk : k < n := by
      have := hk1
      rwa [windowOf_length] at this
    simp only [windowOf, List.getElem_map, List.getElem_range,
      List.getElem_set]
    by_cases h1 : (k : ℤ) = i <;> by_cases h2 : (k : ℤ) = j
    · have hkj : j.toNat = k := by omega
      have hij : j = i := by omega
      rw [if_pos h1, if_pos hkj, hij]
    · have hki : i.toNat = k := by omega
      have hkj : ¬ j.toNat = k := by omega
      rw [if_pos h1, if_neg hkj, if_pos hki]
    · have hkj : j.toNat = k := by omega
      rw [if_neg h1, if_pos h2, if_pos hkj]
    · have hki : ¬ i.toNat = k := by omega
      have hkj : ¬ j.toNat = k := by omega
      rw [if_neg h1, if_neg h2, if_neg hkj, if_neg hki]

/-- The swap loop of `seededShuffle` permutes the index window when the
running hash is non-negative (then every LCG value lies in `[0, 233280)`
and every swap target is in range). -/
theorem shuffleLoop_window_perm (n : ℕ) :
    ∀ (ci : ℕ), ci ≤ n → ∀ (f : ℤ → Option α) (h : ℤ), 0 ≤ h →
      (windowOf (shuffleLoop f h ci).1 n).Perm (windowOf f n) := by
  intro ci
  induction ci with
  | zero =>
    intro _ f h _
    exact List.Perm.refl _
  | succ ci ih =>
    intro hci f h hh
    letI : DecidableEq (Option α) := Classical.decEq _
    have hh' : 0 ≤ lcgNext h := Int.tmod_nonneg _ (by positivity)
    have hh'lt : lcgNext h < 233280 := Int.tmod_lt_of_pos _ (by norm_num)
    have hri0 : 0 ≤ swapIndex (lcgNext h) (ci + 1) :=
      Int.fdiv_nonneg (by positivity) (by norm_num)
    have hrile : swapIndex (lcgNext h) (ci + 1) < (ci : ℤ) + 1 := by
      rw [swapIndex, Int.fdiv_eq_ediv _ (by norm_num)]
      rw [Int.ediv_lt_iff_lt_mul (by norm_num)]
      push_cast
      nlinarith
    have hcin : ((ci : ℤ) + 1) ≤ (n : ℤ) := by exact_mod_cast hci
    have hstep : (shuffleLoop f h (ci + 1)).1 =
        (shuffleLoop
          (fun j => if j = (ci : ℤ) then f (swapIndex (lcgNext h) (ci + 1))
            else if j = swapIndex (lcgNext h) (ci + 1) then f (ci : ℤ)
            else f j)
          (lcgNext h) ci).1 := rfl
    rw [hstep]
    refine (ih (by omega) _ (lcgNext h) hh').trans ?_
    rw [windowOf_swapfun f n (ci : ℤ) (swapIndex (lcgNext h) (ci + 1))
      (by positivity) (by omega) hri0 (by omega)]
    have hci' : (ci : ℤ).toNat < (windowOf f n).length := by
      rw [windowOf_length]
      omega
    have hri' : (swapIndex (lcgNext h) (ci + 1)).toNat <
        (windowOf f n).length := by
      rw [windowOf_length]
      omega
    have hv1 : f (swapIndex (lcgNext h) (ci + 1)) =
        (windowOf f n).get ⟨(swapIndex (lcgNext h) (ci + 1)).toNat, hri'⟩ := by
      rw [windowOf_getElem]
      congr 1
      omega
    have hv2 : f (ci : ℤ) = (windowOf f n).get ⟨(ci : ℤ).toNat, hci'⟩ := by
      rw [windowOf_getElem]
      congr 1
      try omega
    rw [hv1, hv2]
    exact set_set_swap_perm (windowOf f n) _ _ hci' hri'

/-- C10 (amended): whenever the 32-bit seed hash is non-negative,
`seededShuffle` returns a permutation of its input (wrapped in `some`):
same length, exactly the same elements, no entry dropped, duplicated or
replaced by `undefined`.  For seeds with a negative hash the swap targets
become negative array indices and the output need not be a permutation
(see the counterexample). -/
theorem seededShuffle_perm_of_nonneg_hash :
    ∀ {α : Type _} (l : List α) (seed : Str), 0 ≤ jsStringHash seed →
      (seededShuffle l seed).Perm (l.map some) := by
  intro α l seed hh
  have hwin : windowOf
      (fun j : ℤ => if j < 0 then none else l[j.toNat]?) l.length =
      l.map some := by
    apply List.ext_getElem
    · rw [windowOf_length, List.length_map]
    · intro k hk1 hk2
      have hk : k < l.length := by
        have := hk1
        rwa [windowOf_length] at this
      simp only [windowOf, List.getElem_map, List.getElem_range]
      rw [if_neg (by omega)]
      have : ((k : ℤ)).toNat = k := by omega
      rw [this, List.getElem?_eq_getElem hk]
  have hperm := shuffleLoop_window_perm l.length l.length le_rfl
    (fun j : ℤ => if j < 0 then none else l[j.toNat]?)
    (jsStringHash seed) hh
  rw [hwin] at hperm
  exact hperm

/-- Witness for C10: the amended permutation theorem applied to a concrete
list and a daily seed whose hash is non-negative. -/
theorem seededShuffle_perm_witness :
    (seededShuffle ([0, 1, 2] : List ℕ) ("2023-11-05:de".data)).Perm
      (([0, 1, 2] : List ℕ).map some) :=
  seededShuffle_perm_of_nonneg_hash [0, 1, 2] ("2023-11-05:de".data)
    (by decide)

set_option maxRecDepth 40000 in
/-- Counterexample for C10 as originally stated: for the real daily seed
`2025-01-01:de` the 32-bit hash is negative, the swap targets are negative
array indices, and the shuffle of `[0, 1, 2]` evaluates to
`[some 2, undefined, undefined]` — not a permutation of the input. -/
theorem seededShuffle_not_perm_counterexample :
    seededShuffle ([0, 1, 2] : List ℕ) ("2025-01-01:de".data) =
      [some 2, none, none] ∧
    ¬ (seededShuffle ([0, 1, 2] : List ℕ) ("2025-01-01:de".data)).Perm
      (([0, 1, 2] : List ℕ).map some) := by
  constructor
  · decide
  · decide

/-! ### Binary64 rounding lemmas -/

theorem roundTiesEven_le (s : ℚ) : (roundTiesEven s : ℚ) ≤ s + 1/2 := by
  have h1 := Int.floor_le s
  have h2 := Int.lt_floor_add_one s
  simp only [roundTiesEven]
  split_ifs <;> push_cast <;> linarith

theorem le_roundTiesEven (s : ℚ) : s - 1/2 ≤ (roundTiesEven s : ℚ) := by
  have h1 := Int.floor_le s
  have h2 := Int.lt_floor_add_one s
  simp only [roundTiesEven]
  split_ifs <;> push_cast <;> linarith

theorem floor_le_roundTiesEven (s : ℚ) : ⌊s⌋ ≤ roundTiesEven s := by
  simp only [roundTiesEven]
  split_ifs <;> omega

theorem roundTiesEven_le_floor_add_one (s : ℚ) :
    roundTiesEven s ≤ ⌊s⌋ + 1 := by
  simp only [roundTiesEven]
  split_ifs <;> omega

theorem roundTiesEven_intCast (m : ℤ) : roundTiesEven (m : ℚ) = m := by
  simp only [roundTiesEven, Int.floor_intCast]
  rw [if_pos]
  norm_num

theorem roundTiesEven_mono {s t : ℚ} (hst : s ≤ t) :
    roundTiesEven s ≤ roundTiesEven t := by
  have hf : ⌊s⌋ ≤ ⌊t⌋ := Int.floor_mono hst
  rcases lt_or_eq_of_le hf with hlt | heq
  · calc roundTiesEven s ≤ ⌊s⌋ + 1 := roundTiesEven_le_floor_add_one s
      _ ≤ ⌊t⌋ := by omega
      _ ≤ roundTiesEven t := floor_le_roundTiesEven t
  · have hd : s - (⌊s⌋ : ℚ) ≤ t - (⌊t⌋ : ℚ) := by
      rw [← heq]
      linarith
    simp only [roundTiesEven, ← heq]
    split_ifs <;> first | omega | linarith

theorem fpRound_of_pos {q : ℚ} (hq : 0 < q) : fpRound q = fpRoundPos q := by
  rw [fpRound, if_neg hq.ne', if_neg (not_lt.mpr hq.le)]

theorem fpRound_zero : fpRound 0 = 0 := by simp [fpRound]

theorem fpRoundPos_sub_abs {q : ℚ} (hq : 0 < q) :
    |fpRoundPos q - q| ≤ q / 2 ^ 53 := by
  have htwo : (0 : ℚ) < 2 := by norm_num
  set e := Int.log 2 q with he
  have h2e : (2 : ℚ) ^ e ≤ q := Int.zpow_log_le_self (by norm_num) hq
  set s : ℚ := q * 2 ^ ((52 : ℤ) - e) with hs
  have hqs : q = s * 2 ^ (e - 52) := by
    rw [hs, mul_assoc, ← zpow_add₀ (by norm_num : (2:ℚ) ≠ 0)]
    norm_num
  have habs : |(roundTiesEven s : ℚ) - s| ≤ 1 / 2 := by
    rw [abs_le]
    constructor
    · linarith [le_roundTiesEven s]
    · linarith [roundTiesEven_le s]
  have hpow : (0 : ℚ) < 2 ^ (e - 52) := by positivity
  have : fpRoundPos q - q = ((roundTiesEven s : ℚ) - s) * 2 ^ (e - 52) := by
    rw [fpRoundPos]
    rw [← he, ← hs]
    rw [sub_mul]
    rw [← hqs]
  rw [this, abs_mul, abs_of_pos hpow]
  calc |(roundTiesEven s : ℚ) - s| * 2 ^ (e - 52)
      ≤ (1 / 2) * 2 ^ (e - 52) := by
        exact mul_le_mul_of_nonneg_right habs (le_of_lt hpow)
    _ = 2 ^ (e - 53) := by
        rw [show (e : ℤ) - 53 = (e - 52) + (-1) by ring, zpow_add₀
          (by norm_num : (2:ℚ) ≠ 0)]
        norm_num
        ring
    _ ≤ q * 2 ^ (-53 : ℤ) := by
        rw [show (e : ℤ) - 53 = e + (-53) by ring, zpow_add₀
          (by norm_num : (2:ℚ) ≠ 0)]
        exact mul_le_mul_of_nonneg_right h2e (by positivity)
    _ = q / 2 ^ 53 := by
        rw [zpow_neg]
        rw [div_eq_mul_inv]
        norm_num

theorem fpRound_le_of_pos {q : ℚ} (hq : 0 < q) :
    fpRound q ≤ q + q / 2 ^ 53 := by
  rw [fpRound_of_pos hq]
  have := (abs_le.mp (fpRoundPos_sub_abs hq)).2
  linarith

theorem le_fpRound_of_pos {q : ℚ} (hq : 0 < q) :
    q - q / 2 ^ 53 ≤ fpRound q := by
  rw [fpRound_of_pos hq]
  have := (abs_le.mp (fpRoundPos_sub_abs hq)).1
  linarith

theorem fpRound_pos {q : ℚ} (hq : 0 < q) : 0 < fpRound q := by
  have h1 := le_fpRound_of_pos hq
  have h53 : (0:ℚ) < 2 ^ 53 := by positivity
  have : q / 2 ^ 53 < q := by
    rw [div_lt_iff₀ h53]
    nlinarith
  linarith

theorem fpRound_mono {a b : ℚ} (ha : 0 < a) (hab : a ≤ b) :
    fpRound a ≤ fpRound b := by
  have hb : 0 < b := lt_of_lt_of_le ha hab
  rw [fpRound_of_pos ha, fpRound_of_pos hb]
  have hea : (2 : ℚ) ^ Int.log 2 a ≤ a := Int.zpow_log_le_self (by norm_num) ha
  have heb : (2 : ℚ) ^ Int.log 2 b ≤ b := Int.zpow_log_le_self (by norm_num) hb
  have hee : Int.log 2 a ≤ Int.log 2 b := Int.log_mono_right ha hab
  rcases lt_or_eq_of_le hee with hlt | heq
  · -- strictly smaller binade: a rounds below 2^(ea+1) ≤ 2^eb ≤ round of b
    set ea := Int.log 2 a with hea'
    set eb := Int.log 2 b with heb'
    have haup : a < 2 ^ (ea + 1) := Int.lt_zpow_succ_log_self (by norm_num) a
    have hsa : a * 2 ^ ((52 : ℤ) - ea) < 2 ^ (53 : ℤ) := by
      have : a * 2 ^ ((52 : ℤ) - ea) < 2 ^ (ea + 1) * 2 ^ ((52 : ℤ) - ea) := by
        exact mul_lt_mul_of_pos_right haup (by positivity)
      calc a * 2 ^ ((52 : ℤ) - ea) < 2 ^ (ea + 1) * 2 ^ ((52 : ℤ) - ea) := this
        _ = 2 ^ (53 : ℤ) := by
          rw [← zpow_add₀ (by norm_num : (2:ℚ) ≠ 0)]
          ring_nf
    have hra : roundTiesEven (a * 2 ^ ((52 : ℤ) - ea)) ≤ 2 ^ (53 : ℕ) := by
      have hfl : ⌊a * 2 ^ ((52 : ℤ) - ea)⌋ < 2 ^ (53 : ℕ) := by
        rw [Int.floor_lt]
        push_cast
        exact_mod_cast hsa
      have := roundTiesEven_le_floor_add_one (a * 2 ^ ((52 : ℤ) - ea))
      omega
    have hsb : (2 : ℚ) ^ (52 : ℤ) ≤ b * 2 ^ ((52 : ℤ) - eb) := by
      calc (2:ℚ) ^ (52 : ℤ) = 2 ^ eb * 2 ^ ((52 : ℤ) - eb) := by
            rw [← zpow_add₀ (by norm_num : (2:ℚ) ≠ 0)]
            ring_nf
        _ ≤ b * 2 ^ ((52 : ℤ) - eb) := by
            exact mul_le_mul_of_nonneg_right heb (by positivity)
    have hrb : (2 : ℤ) ^ (52 : ℕ) ≤ roundTiesEven (b * 2 ^ ((52 : ℤ) - eb)) := by
      have hfl : (2 : ℤ) ^ (52 : ℕ) ≤ ⌊b * 2 ^ ((52 : ℤ) - eb)⌋ := by
        rw [Int.le_floor]
        push_cast
        exact_mod_cast hsb
      have := floor_le_roundTiesEven (b * 2 ^ ((52 : ℤ) - eb))
      omega
    calc (roundTiesEven (a * 2 ^ ((52 : ℤ) - ea)) : ℚ) * 2 ^ (ea - 52)
        ≤ (2 : ℚ) ^ (53 : ℤ) * 2 ^ (ea - 52) := by
          apply mul_le_mul_of_nonneg_right _ (by positivity)
          exact_mod_cast hra
      _ = 2 ^ (ea + 1) := by
          rw [← zpow_add₀ (by norm_num : (2:ℚ) ≠ 0)]
          ring_nf
      _ ≤ 2 ^ eb := by
          apply zpow_le_zpow_right₀ (by norm_num) (by omega)
      _ = (2 : ℚ) ^ (52 : ℤ) * 2 ^ (eb - 52) := by
          rw [← zpow_add₀ (by norm_num : (2:ℚ) ≠ 0)]
          ring_nf
      _ ≤ (roundTiesEven (b * 2 ^ ((52 : ℤ) - eb)) : ℚ) * 2 ^ (eb - 52) := by
          apply mul_le_mul_of_nonneg_right _ (by positivity)
          exact_mod_cast hrb
  · -- same binade: monotone significand rounding
    rw [fpRoundPos, fpRoundPos, ← heq]
    apply mul_le_mul_of_nonneg_right _ (by positivity)
    have : roundTiesEven (a * 2 ^ ((52 : ℤ) - Int.log 2 a)) ≤
        roundTiesEven (b * 2 ^ ((52 : ℤ) - Int.log 2 a)) := by
      apply roundTiesEven_mono
      exact mul_le_mul_of_nonneg_right hab (by positivity)
    exact_mod_cast this

theorem log2_eq_of_bounds {q : ℚ} {e : ℤ} (hq : 0 < q)
    (h1 : (2 : ℚ) ^ e ≤ q) (h2 : q < 2 ^ (e + 1)) : Int.log 2 q = e := by
  have hle : e ≤ Int.log 2 q :=
    (Int.zpow_le_iff_le_log (by norm_num) hq).mp (by exact_mod_cast h1)
  have hlt : Int.log 2 q < e + 1 :=
    (Int.lt_zpow_iff_log_lt (by norm_num) hq).mp (by exact_mod_cast h2)
  omega

theorem fpRound_eq_of_bounds {q : ℚ} {e : ℤ} (hq : 0 < q)
    (h1 : (2 : ℚ) ^ e ≤ q) (h2 : q < 2 ^ (e + 1)) :
    fpRound q = (roundTiesEven (q * 2 ^ ((52 : ℤ) - e)) : ℚ) * 2 ^ (e - 52) := by
  rw [fpRound_of_pos hq, fpRoundPos, log2_eq_of_bounds hq h1 h2]

theorem fpRound_thirty : fpRound (30 : ℚ) = 30 := by
  rw [fpRound_eq_of_bounds (e := 4) (by norm_num) (by norm_num) (by norm_num)]
  have h48 : ((52 : ℤ) - 4) = 48 := by norm_num
  have h482 : ((4 : ℤ) - 52) = -48 := by norm_num
  rw [h48, h482]
  have : (30 : ℚ) * 2 ^ (48 : ℤ) = ((30 * 2 ^ 48 : ℤ) : ℚ) := by
    push_cast
    norm_num
  rw [this, roundTiesEven_intCast]
  push_cast
  rw [zpow_neg]
  norm_num

theorem fpRound_sixty : fpRound (60 : ℚ) = 60 := by
  rw [fpRound_eq_of_bounds (e := 5) (by norm_num) (by norm_num) (by norm_num)]
  have h1 : ((52 : ℤ) - 5) = 47 := by norm_num
  have h2 : ((5 : ℤ) - 52) = -47 := by norm_num
  rw [h1, h2]
  have : (60 : ℚ) * 2 ^ (47 : ℤ) = ((60 * 2 ^ 47 : ℤ) : ℚ) := by
    push_cast
    norm_num
  rw [this, roundTiesEven_intCast]
  push_cast
  rw [zpow_neg]
  norm_num

theorem fpRound_ninety : fpRound (90 : ℚ) = 90 := by
  rw [fpRound_eq_of_bounds (e := 6) (by norm_num) (by norm_num) (by norm_num)]
  have h1 : ((52 : ℤ) - 6) = 46 := by norm_num
  have h2 : ((6 : ℤ) - 52) = -46 := by norm_num
  rw [h1, h2]
  have : (90 : ℚ) * 2 ^ (46 : ℤ) = ((90 * 2 ^ 46 : ℤ) : ℚ) := by
    push_cast
    norm_num
  rw [this, roundTiesEven_intCast]
  push_cast
  rw [zpow_neg]
  norm_num

theorem fpRound_div1000_lt_iff (t c : ℕ) (hc1 : 1 ≤ c) (hc90 : c ≤ 90)
    (hfix : fpRound (c : ℚ) = c) :
    fpRound ((t : ℚ) / 1000) < (c : ℚ) ↔ t < 1000 * c := by
  constructor
  · intro h
    by_contra hge
    push_neg at hge
    have hc' : (0 : ℚ) < c := by exact_mod_cast hc1
    have hle : (c : ℚ) ≤ (t : ℚ) / 1000 := by
      rw [le_div_iff₀ (by norm_num : (0:ℚ) < 1000)]
      calc (c : ℚ) * 1000 = ((1000 * c : ℕ) : ℚ) := by push_cast; ring
        _ ≤ t := by exact_mod_cast hge
    have := fpRound_mono hc' hle
    rw [hfix] at this
    linarith
  · intro h
    rcases Nat.eq_zero_or_pos t with rfl | ht
    · have hc' : (0 : ℚ) < c := by exact_mod_cast hc1
      simpa [fpRound_zero] using hc'
    · have hq : (0 : ℚ) < (t : ℚ) / 1000 := by positivity
      have hub := fpRound_le_of_pos hq
      have hts : (t : ℚ) ≤ 1000 * c - 1 := by
        have : t + 1 ≤ 1000 * c := h
        have := (Nat.cast_le (α := ℚ)).mpr this
        push_cast at this
        linarith
      have hcq : (c : ℚ) ≤ 90 := by exact_mod_cast hc90
      have h53 : (0:ℚ) < 2 ^ 53 := by positivity
      have hqle : (t : ℚ) / 1000 ≤ (c : ℚ) - 1 / 1000 := by
        rw [div_le_iff₀ (by norm_num : (0:ℚ) < 1000)]
        ring_nf
        ring_nf at hts
        linarith
      have hsmall : ((c : ℚ) - 1 / 1000) / 2 ^ 53 < 1 / 1000 := by
        rw [div_lt_iff₀ h53]
        nlinarith
      have hdivmono : (t : ℚ) / 1000 / 2 ^ 53 ≤ ((c:ℚ) - 1/1000) / 2 ^ 53 := by
        exact div_le_div_of_nonneg_right hqle h53.le
      linarith

theorem timeBonus_eq (t : ℕ) :
    (if fpRound ((t : ℚ) / 1000) < 30 then (50 : ℤ)
     else if fpRound ((t : ℚ) / 1000) < 60 then 30
     else if fpRound ((t : ℚ) / 1000) < 90 then 15 else 0) =
    (if t < 30000 then (50 : ℤ) else if t < 60000 then 30
     else if t < 90000 then 15 else 0) := by
  have h30 : fpRound ((t : ℚ) / 1000) < 30 ↔ t < 30000 := by
    have := fpRound_div1000_lt_iff t 30 (by norm_num) (by norm_num)
      (by exact_mod_cast fpRound_thirty)
    norm_num at this
    exact this
  have h60 : fpRound ((t : ℚ) / 1000) < 60 ↔ t < 60000 := by
    have := fpRound_div1000_lt_iff t 60 (by norm_num) (by norm_num)
      (by exact_mod_cast fpRound_sixty)
    norm_num at this
    exact this
  have h90 : fpRound ((t : ℚ) / 1000) < 90 ↔ t < 90000 := by
    have := fpRound_div1000_lt_iff t 90 (by norm_num) (by norm_num)
      (by exact_mod_cast fpRound_ninety)
    norm_num at this
    exact this
  simp only [h30, h60, h90]

set_option maxHeartbeats 1000000 in
theorem floor_double_round_div (c u : ℕ) (hu : 0 < u) (hc : 0 < c)
    (hcb : c ≤ 2 ^ 45) (hnd : ¬ (u ∣ 50 * c)) :
    ⌊fpRound (fpRound ((c : ℚ) / u) * 50)⌋ = ((50 * c) / u : ℕ) := by
  have huq : (0 : ℚ) < u := by exact_mod_cast hu
  have hune : (u : ℚ) ≠ 0 := ne_of_gt huq
  have hcq : (0 : ℚ) < c := by exact_mod_cast hc
  set q : ℚ := (c : ℚ) / u with hq
  have hq0 : 0 < q := by positivity
  set x : ℚ := fpRound q with hx
  have hx0 : 0 < x := fpRound_pos hq0
  have hxub : x ≤ q + q / 2 ^ 53 := fpRound_le_of_pos hq0
  have hxlb : q - q / 2 ^ 53 ≤ x := le_fpRound_of_pos hq0
  set y : ℚ := x * 50 with hy
  have hy0 : 0 < y := by positivity
  set z : ℚ := fpRound y with hz
  have hzub : z ≤ y + y / 2 ^ 53 := fpRound_le_of_pos hy0
  have hzlb : y - y / 2 ^ 53 ≤ z := le_fpRound_of_pos hy0
  set K : ℚ := 50 * q with hK
  have hK0 : 0 < K := by positivity
  have hKd : K / 2 ^ 53 ≤ K := by
    rw [div_le_iff₀ (by positivity : (0:ℚ) < 2 ^ 53)]
    nlinarith
  have hyub : y ≤ K + K / 2 ^ 53 := by
    have : y = 50 * x := by rw [hy]; ring
    have h50 : 50 * (q / 2 ^ 53) = K / 2 ^ 53 := by
      rw [hK]; ring
    nlinarith
  have hylb : K - K / 2 ^ 53 ≤ y := by
    have h50 : 50 * (q / 2 ^ 53) = K / 2 ^ 53 := by
      rw [hK]; ring
    nlinarith
  have hpow : (2 : ℚ) ^ 53 = 4 * 2 ^ 51 := by norm_num
  have hKq : 4 * (K / 2 ^ 53) = K / 2 ^ 51 := by
    rw [hpow, mul_comm (4 : ℚ) (2 ^ 51 : ℚ), ← div_div]
    ring
  have hyd : y / 2 ^ 53 ≤ 2 * (K / 2 ^ 53) := by
    have h1 : y ≤ 2 * K := by nlinarith
    calc y / 2 ^ 53 ≤ (2 * K) / 2 ^ 53 :=
          div_le_div_of_nonneg_right h1 (by positivity)
      _ = 2 * (K / 2 ^ 53) := by ring
  have hzKub : z ≤ K + K / 2 ^ 51 := by
    have : z ≤ K + K / 2 ^ 53 + 2 * (K / 2 ^ 53) := by linarith
    nlinarith [hKq, hK0, div_pos hK0 (by positivity : (0:ℚ) < 2 ^ 53)]
  have hzKlb : K - K / 2 ^ 51 ≤ z := by
    have : K - K / 2 ^ 53 - 2 * (K / 2 ^ 53) ≤ z := by linarith
    nlinarith [hKq, hK0, div_pos hK0 (by positivity : (0:ℚ) < 2 ^ 53)]
  -- exact quotient brackets
  have hdm := Nat.div_add_mod (50 * c) u
  have hmod0 : (50 * c) % u ≠ 0 := fun h0 => hnd (Nat.dvd_of_mod_eq_zero h0)
  have hmodlt : (50 * c) % u < u := Nat.mod_lt _ hu
  have hlow : u * ((50 * c) / u) + 1 ≤ 50 * c := by omega
  have hhigh : 50 * c + 1 ≤ u * ((50 * c) / u) + u := by omega
  have hKmu : K * u = 50 * c := by
    rw [hK, hq]
    field_simp
  have hKlb : (((50 * c) / u : ℕ) : ℚ) + 1 / u ≤ K := by
    have h1 : ((((50 * c) / u : ℕ) : ℚ) + 1 / u) * u ≤ K * u := by
      rw [hKmu]
      have hcast : (u : ℚ) * (((50 * c) / u : ℕ) : ℚ) + 1 ≤ 50 * c := by
        exact_mod_cast hlow
      field_simp
      linarith
    exact le_of_mul_le_mul_right h1 huq
  have hKub : K ≤ (((50 * c) / u : ℕ) : ℚ) + 1 - 1 / u := by
    have h1 : K * u ≤ ((((50 * c) / u : ℕ) : ℚ) + 1 - 1 / u) * u := by
      rw [hKmu]
      have hcast : (50 : ℚ) * c + 1 ≤
          (u : ℚ) * (((50 * c) / u : ℕ) : ℚ) + u := by
        exact_mod_cast hhigh
      field_simp
      linarith
    exact le_of_mul_le_mul_right h1 huq
  have hsmall : K / 2 ^ 51 < 1 / u := by
    rw [div_lt_div_iff₀ (by positivity) huq, hKmu]
    have hcc : (c : ℚ) ≤ 2 ^ 45 := by exact_mod_cast hcb
    nlinarith
  have hzlow : ((((50 * c) / u : ℕ) : ℚ)) < z := by linarith
  have hzhigh : z < (((50 * c) / u : ℕ) : ℚ) + 1 := by linarith
  rw [Int.floor_eq_iff]
  constructor
  · exact_mod_cast le_of_lt hzlow
  · exact_mod_cast hzhigh

theorem fpRound_23_div_5 :
    fpRound ((23 : ℚ) / 5) = 5179139571476070 / 2 ^ 50 := by
  rw [fpRound_eq_of_bounds (e := 2) (by norm_num) (by norm_num) (by norm_num)]
  have he1 : ((52 : ℤ) - 2) = 50 := by norm_num
  have he2 : ((2 : ℤ) - 52) = -50 := by norm_num
  rw [he1, he2]
  have hs : (23 : ℚ) / 5 * 2 ^ (50 : ℤ) = 25895697857380352 / 5 := by
    norm_num
  rw [hs]
  have hfl : ⌊(25895697857380352 : ℚ) / 5⌋ = 5179139571476070 := by
    norm_num [Int.floor_eq_iff]
  simp only [roundTiesEven]
  rw [hfl]
  norm_num

theorem fpRound_loss_second :
    fpRound ((5179139571476070 : ℚ) / 2 ^ 50 * 50) =
      8092405580431359 / 2 ^ 45 := by
  have harg : (5179139571476070 : ℚ) / 2 ^ 50 * 50 =
      64739244643450875 / 2 ^ 48 := by
    norm_num
  rw [harg]
  rw [fpRound_eq_of_bounds (e := 7) (by norm_num) (by norm_num) (by norm_num)]
  have he1 : ((52 : ℤ) - 7) = 45 := by norm_num
  have he2 : ((7 : ℤ) - 52) = -45 := by norm_num
  rw [he1, he2]
  have hs : (64739244643450875 : ℚ) / 2 ^ 48 * 2 ^ (45 : ℤ) =
      64739244643450875 / 8 := by
    norm_num
  rw [hs]
  have hfl : ⌊(64739244643450875 : ℚ) / 8⌋ = 8092405580431359 := by
    norm_num [Int.floor_eq_iff]
  simp only [roundTiesEven]
  rw [hfl]
  norm_num

theorem loss_float_23_5 :
    ⌊fpRound (fpRound ((23 : ℚ) / 5) * 50)⌋ = 229 := by
  rw [fpRound_23_div_5, fpRound_loss_second]
  norm_num [Int.floor_eq_iff]

/-- C1: on a win, `calculateScore` returns exactly
`100 + 15*(6 - incorrectGuessCount) + timeBonus + efficiencyBonus` with the
time bonus thresholds at 30, 60 and 90 seconds and the efficiency bonus
thresholds at the unique-letter count (and that count plus two); and for
any outcome the `perfect` flag holds exactly when the game was won with no
incorrect guess in the list. -/
theorem calculateScore_win_spec :
    ∀ (word : Str) (guesses : List HangmanGuess) (timeMs : ℕ),
      (HangmanManager.calculateScore word guesses true timeMs).1 =
        100 + 15 * (6 - ((guesses.filter fun g => !g.correct).length : ℤ)) +
        (if timeMs < 30000 then (50 : ℤ)
         else if timeMs < 60000 then 30
         else if timeMs < 90000 then 15 else 0) +
        (if (guesses.filter fun g => g.correct).length ≤
            uniqueLettersInWord word then (50 : ℤ)
         else if (guesses.filter fun g => g.correct).length ≤
            uniqueLettersInWord word + 2 then 25 else 0) ∧
      ∀ success : Bool,
        ((HangmanManager.calculateScore word guesses success timeMs).2 = true ↔
          success = true ∧ ∀ g ∈ guesses, g.correct = true) := by
  intro word guesses timeMs
  constructor
  · simp only [HangmanManager.calculateScore, if_true]
    rw [timeBonus_eq]
    ring
  · intro success
    simp only [HangmanManager.calculateScore]
    cases success <;>
      simp [List.any_eq_true]

/-- C2 (amended): on a loss, `calculateScore` returns the binary64
computation `Math.floor((correctGuesses / uniqueLetterCount) * 50)`; this
agrees with the exact integer `⌊50 * correctGuesses / uniqueLetterCount⌋`
whenever the unique-letter count does not divide `50 * correctGuesses`
(for every realistic count, `correctGuesses ≤ 2^45`); when it does divide,
the rounded result can fall one short of the exact value, as at
`correctGuesses = 23`, `uniqueLetterCount = 5` (see the counterexample). -/
theorem calculateScore_loss_spec :
    ∀ (word : Str) (guesses : List HangmanGuess) (timeMs : ℕ),
      0 < uniqueLettersInWord word →
      (guesses.filter fun g => g.correct).length ≤ 2 ^ 45 →
      ¬ (uniqueLettersInWord word ∣
          50 * (guesses.filter fun g => g.correct).length) →
      (HangmanManager.calculateScore word guesses false timeMs).1 =
        ((50 * (guesses.filter fun g => g.correct).length) /
          uniqueLettersInWord word : ℕ) := by
  intro word guesses timeMs hu hcb hnd
  have hc : 0 < (guesses.filter fun g => g.correct).length := by
    rcases Nat.eq_zero_or_pos (guesses.filter fun g => g.correct).length with
      h0 | h
    · exact absurd (by simp [h0] : uniqueLettersInWord word ∣
        50 * (guesses.filter fun g => g.correct).length) hnd
    · exact h
  simp only [HangmanManager.calculateScore, Bool.false_eq_true, if_false]
  exact floor_double_round_div _ _ hu hc hcb hnd

/-- Witness for C2: the amended loss theorem at a word with seven unique
letters and three distinct correct guesses (`7 ∤ 150`), yielding the exact
`⌊150/7⌋ = 21`. -/
theorem calculateScore_loss_spec_witness :
    (HangmanManager.calculateScore ("kuchens".data)
      (List.replicate 3 ⟨"k", true, 0⟩) false 0).1 =
      ((50 * ((List.replicate 3 (⟨"k", true, 0⟩ : HangmanGuess)).filter
          fun g => g.correct).length) /
        uniqueLettersInWord ("kuchens".data) : ℕ) :=
  calculateScore_loss_spec ("kuchens".data)
    (List.replicate 3 ⟨"k", true, 0⟩) 0 (by decide) (by decide) (by decide)

/-- Counterexample for C2 as originally stated: for the word "apfel"
(five unique letters) and 23 correct guesses, the floating-point loss
computation yields 229 while the exact rational formula
`⌊50 * 23 / 5⌋` yields 230 — binary64 rounding of `23/5` falls just below
`4.6` and the product `fl(23/5) * 50` floors to 229. -/
theorem calculateScore_loss_float_counterexample :
    (HangmanManager.calculateScore ("apfel".data)
      (List.replicate 23 ⟨"a", true, 0⟩) false 0).1 = 229 ∧
    ((50 * ((List.replicate 23 (⟨"a", true, 0⟩ : HangmanGuess)).filter
        fun g => g.correct).length) /
      uniqueLettersInWord ("apfel".data) : ℕ) = 230 := by
  constructor
  · have hc : ((List.replicate 23 (⟨"a", true, 0⟩ : HangmanGuess)).filter
        fun g => g.correct).length = 23 := by decide
    have hu : uniqueLettersInWord ("apfel".data) = 5 := by decide
    simp only [HangmanManager.calculateScore, Bool.false_eq_true, if_false]
    rw [hc, hu]
    push_cast
    exact loss_float_23_5
  · decide
